import Mathlib

/-!
Verification of the prompt-vcs source-code migration engine ("codemod")
and the `switch` CLI command, as a shallow embedding in Lean 4.

The codemod subsystem (expression classifier, name sanitizer, f-string
decomposer, candidate scanner, code rewriter) is modelled from the spec:
the module `prompt_vcs/codemod.py` itself is not among the given source
files; only its tests (`tests/test_codemod.py`) and its caller
(`cli.py:migrate`) are.  Python expressions appearing inside f-string
interpolations are modelled as abstract syntax trees as produced by the
concrete-syntax parser; Python statements are modelled as a list of
statement records.

The `switch` command is embedded from `src/prompt_vcs/cli.py` (lines
252-317), modelling the file system interactions it performs (version
file existence check, lockfile read, lockfile write) explicitly.
-/

/-- Modelled from the spec: a Python expression as it can appear inside an
f-string interpolation.  Simple access chains (names, attribute access,
subscripts with string or integer literal keys) are structured; the forms
that the classifier always rejects (calls, operators, conditional
expressions, subscripts with non-literal keys) carry their raw source
text. -/
inductive PyExpr where
  | name (s : String)
  | attr (base : PyExpr) (field : String)
  | subStr (base : PyExpr) (key : String)
  | subInt (base : PyExpr) (key : Nat)
  | callE (text : String)
  | binOp (text : String)
  | condE (text : String)
  | subAny (base : PyExpr) (keyText : String)
deriving DecidableEq, Repr

/-- A decimal digit character for `n % 10`-style rendering. -/
def digitChar : Nat → Char
  | 0 => '0' | 1 => '1' | 2 => '2' | 3 => '3' | 4 => '4'
  | 5 => '5' | 6 => '6' | 7 => '7' | 8 => '8' | _ => '9'

/-- Decimal digit list of a natural number (most significant first). -/
def natDigits (n : Nat) : List Char :=
  if n < 10 then [digitChar n]
  else natDigits (n / 10) ++ [digitChar (n % 10)]
termination_by n
decreasing_by
  exact Nat.div_lt_self (by omega) (by omega)

/-- Decimal string of a natural number, mirroring Python `str(int)`. -/
def natToStr (n : Nat) : String := String.mk (natDigits n)

/-- Source text of an expression, as the parser would render it back. -/
def exprText : PyExpr → String
  | .name s => s
  | .attr b f => exprText b ++ "." ++ f
  | .subStr b k => exprText b ++ "[\x27" ++ k ++ "\x27]"
  | .subInt b n => exprText b ++ "[" ++ natToStr n ++ "]"
  | .callE t => t
  | .binOp t => t
  | .condE t => t
  | .subAny b k => exprText b ++ "[" ++ k ++ "]"

/-- Modelled from the spec: `is_complex_expression`.  An expression is
simple iff it is a bare identifier, a chain of attribute accesses, or a
subscript access with a string or integer literal key (chains allowed);
calls, operators, conditional expressions and subscripts with non-literal
keys are complex. -/
def is_complex_expression : PyExpr → Bool
  | .name _ => false
  | .attr b _ => is_complex_expression b
  | .subStr b _ => is_complex_expression b
  | .subInt b _ => is_complex_expression b
  | .callE _ => true
  | .binOp _ => true
  | .condE _ => true
  | .subAny _ _ => true

/-- The spec's characterization of a simple expression, written as an
inductive predicate following the spec's words: a bare identifier, a
chain of attribute accesses, or a subscript access with a string or
integer literal key, chains of these allowed. -/
inductive SimpleAccess : PyExpr → Prop where
  | name (s : String) : SimpleAccess (.name s)
  | attr {b : PyExpr} (f : String) : SimpleAccess b → SimpleAccess (.attr b f)
  | subStr {b : PyExpr} (k : String) : SimpleAccess b → SimpleAccess (.subStr b k)
  | subInt {b : PyExpr} (k : Nat) : SimpleAccess b → SimpleAccess (.subInt b k)

/-- Modelled from the spec: `sanitize_variable_name`, applied over the
access chain left to right: `.` separators become `_`, a subscript with a
quoted string key becomes `_<key>`, a subscript with an integer key
becomes `_<digits>`.  The function is only ever applied to simple
expressions; on complex forms it yields the empty string. -/
def sanitize_variable_name : PyExpr → String
  | .name s => s
  | .attr b f => sanitize_variable_name b ++ "_" ++ f
  | .subStr b k => sanitize_variable_name b ++ "_" ++ k
  | .subInt b n => sanitize_variable_name b ++ "_" ++ natToStr n
  | _ => ""

/-- A character usable inside a Python identifier (ASCII model). -/
def isIdentChar (c : Char) : Bool := c.isAlphanum || c == '_'

/-- Characters form a valid bare identifier: nonempty, first character a
letter or underscore, the rest letters, digits or underscores. -/
def validIdentChars : List Char → Bool
  | [] => false
  | c :: cs => (c.isAlpha || c == '_') && cs.all isIdentChar

/-- A valid bare Python identifier (ASCII model). -/
def isValidIdentifier (s : String) : Bool := validIdentChars s.data

/-- Well-formedness of a simple access chain as produced by parsing real
Python source: the base name and every attribute field are valid
identifiers, and every string subscript key consists of identifier
characters. -/
def wfChain : PyExpr → Bool
  | .name s => isValidIdentifier s
  | .attr b f => wfChain b && isValidIdentifier f
  | .subStr b k => wfChain b && k.data.all isIdentChar
  | .subInt b _ => wfChain b
  | _ => false

/-- Modelled from the spec: one decomposed interpolation of an f-string.
`format_spec` stores the specifier text including the leading colon
(e.g. `:.2f`), matching what the tests observe. -/
structure FStringPart where
  placeholder : String
  expression : String
  format_spec : Option String
deriving DecidableEq, Repr

/-- A segment of an f-string literal: either verbatim literal text or an
interpolation holding an expression and an optional format specifier
(the bare specifier text, without the colon). -/
inductive FSeg where
  | lit (s : String)
  | interp (e : PyExpr) (fmt : Option String)
deriving DecidableEq, Repr

/-- The format-specifier suffix as it appears in source text between the
braces: empty, or a colon followed by the specifier. -/
def fmtSuffix : Option String → String
  | none => ""
  | some f => ":" ++ f

/-- The stored `format_spec` field for a part: the specifier with its
leading colon, when present. -/
def fmtStored : Option String → Option String
  | none => none
  | some f => some (":" ++ f)

/-- Left brace as text. -/
def lbS : String := "\x7b"

/-- Right brace as text. -/
def rbS : String := "\x7d"

/-- Source text of one f-string segment (the original literal body). -/
def segText : FSeg → String
  | .lit s => s
  | .interp e fmt => lbS ++ exprText e ++ fmtSuffix fmt ++ rbS

/-- Source text of an f-string body, the concatenation of its segments. -/
def fstringText : List FSeg → String
  | [] => ""
  | s :: r => segText s ++ fstringText r

/-- Membership of a string in a list of strings. -/
def strMem : List String → String → Bool
  | [], _ => false
  | y :: r, x => x == y || strMem r x

/-- Modelled from the spec: the decomposer's recursion.  `seen` holds the
placeholder names already emitted (for collision detection).  Literal
segments are copied verbatim.  A complex interpolation, an interpolation
whose sanitized name is not a valid identifier, and a placeholder
collision all emit the raw expression text and set the complex flag;
a simple interpolation emits `{placeholder}` (with `:<format_spec>`
appended verbatim when present) and records an `FStringPart`. -/
def extractAux (seen : List String) : List FSeg → String × List FStringPart × Bool
  | [] => ("", [], false)
  | .lit s :: rest =>
    let r := extractAux seen rest
    (s ++ r.1, r.2.1, r.2.2)
  | .interp e fmt :: rest =>
    if is_complex_expression e then
      let r := extractAux seen rest
      (lbS ++ exprText e ++ fmtSuffix fmt ++ rbS ++ r.1, r.2.1, true)
    else
      let ph := sanitize_variable_name e
      if isValidIdentifier ph && !(strMem seen ph) then
        let r := extractAux (ph :: seen) rest
        (lbS ++ ph ++ fmtSuffix fmt ++ rbS ++ r.1,
         ⟨ph, exprText e, fmtStored fmt⟩ :: r.2.1, r.2.2)
      else
        let r := extractAux seen rest
        (lbS ++ exprText e ++ fmtSuffix fmt ++ rbS ++ r.1, r.2.1, true)

/-- Modelled from the spec: `extract_fstring_parts`, the f-string
decomposer.  Returns the template text, the ordered list of parts, and
the `has_complex` flag. -/
def extract_fstring_parts (segs : List FSeg) : String × List FStringPart × Bool :=
  extractAux [] segs

/-- Spec-side rendering of the template: the original literal text with
every interpolation replaced by its sanitized placeholder. -/
def templateSpec : List FSeg → String
  | [] => ""
  | .lit s :: r => s ++ templateSpec r
  | .interp e fmt :: r =>
    lbS ++ sanitize_variable_name e ++ fmtSuffix fmt ++ rbS ++ templateSpec r

/-- Spec-side parts list: one part per interpolation, in order. -/
def specParts : List FSeg → List FStringPart
  | [] => []
  | .lit _ :: r => specParts r
  | .interp e fmt :: r =>
    ⟨sanitize_variable_name e, exprText e, fmtStored fmt⟩ :: specParts r

/-- The sanitized placeholder names of a segment list, in order. -/
def phList : List FSeg → List String
  | [] => []
  | .lit _ :: r => phList r
  | .interp e _ :: r => sanitize_variable_name e :: phList r

/-- All interpolations are simple and sanitize to valid identifiers. -/
def allSimpleValid : List FSeg → Bool
  | [] => true
  | .lit _ :: r => allSimpleValid r
  | .interp e _ :: r =>
    !is_complex_expression e && isValidIdentifier (sanitize_variable_name e)
      && allSimpleValid r

/-- No duplicates in a list of strings (collision freedom). -/
def phNodup : List String → Bool
  | [] => true
  | x :: r => !(strMem r x) && phNodup r

/-- Literal segments and format specifiers contain no brace characters. -/
def segsClean : List FSeg → Bool
  | [] => true
  | .lit s :: r => s.data.all (fun c => !(c == '\x7b') && !(c == '\x7d')) && segsClean r
  | .interp _ fmt :: r =>
    (fmtSuffix fmt).data.all (fun c => !(c == '\x7b') && !(c == '\x7d')) && segsClean r

/-- A Python statement, as the candidate scanner sees it: assignments to a
single name with a plain-string or f-string right-hand side are
structured; the accessor call produced by the rewriter is its own form;
the runtime-accessor import and `from __future__ import ...` lines are
distinguished; everything else is opaque text. -/
inductive Stmt where
  | assignStr (indent : Nat) (target : String) (value : String)
  | assignFStr (indent : Nat) (target : String) (segs : List FSeg)
  | assignPCall (indent : Nat) (target : String) (pid : String)
      (tmpl : Option String) (kwargs : List (String × String))
  | importP
  | futureImport (names : String)
  | other (text : String)
deriving DecidableEq, Repr

/-- The fixed recognized set of prompt-variable names
(`cli.py:migrate` docstring: 'prompt', 'template', 'instruction', 'msg').
Matching is case-sensitive and exact. -/
def RECOGNIZED_NAMES : List String := ["prompt", "template", "instruction", "msg"]

/-- Modelled from the spec: the fixed minimum content length threshold;
literal or template text shorter than this is never migrated.  The tests
bound it in (5, 32]; the model fixes it at 10. -/
def MIN_CONTENT_LENGTH : Nat := 10

/-- Candidate information derived from a single statement, before prompt
identifiers and rendered code are attached. -/
structure CandInfo where
  variable_name : String
  template : String
  bound_params : List (String × String)
deriving DecidableEq, Repr

/-- Modelled from the spec: per-statement candidate test.  An assignment
qualifies iff its target is in the recognized set and its right-hand side
is a plain string of length at least the threshold, or an f-string that
decomposes without `has_complex` into a template of length at least the
threshold.  Plain-string candidates never populate `bound_params`. -/
def candOf : Stmt → Option CandInfo
  | .assignStr _ t v =>
    if RECOGNIZED_NAMES.contains t && MIN_CONTENT_LENGTH ≤ v.length then
      some ⟨t, v, []⟩
    else none
  | .assignFStr _ t segs =>
    let r := extract_fstring_parts segs
    if RECOGNIZED_NAMES.contains t && !r.2.2 && MIN_CONTENT_LENGTH ≤ r.1.length then
      some ⟨t, r.1, r.2.1.map (fun p => (p.placeholder, p.expression))⟩
    else none
  | _ => none

/-- A migration candidate as the scanner reports it. -/
structure MigrationCandidate where
  line_number : Nat
  variable_name : String
  prompt_id : String
  original_code : String
  new_code : String
  template : String
  bound_params : List (String × String)
deriving DecidableEq, Repr

/-- Times a prompt-identifier base has already been used in this file. -/
def lookupCount : List (String × Nat) → String → Option Nat
  | [], _ => none
  | (k, n) :: r, b => if k == b then some n else lookupCount r b

/-- Prompt identifier for a base name given the use counts so far: the
base itself on first use, `base_2`, `base_3`, ... afterwards. -/
def mkPromptId (counts : List (String × Nat)) (base : String) : String :=
  match lookupCount counts base with
  | none => base
  | some n => base ++ "_" ++ natToStr (n + 1)

/-- Record one more use of a base name. -/
def bumpCount : List (String × Nat) → String → List (String × Nat)
  | [], b => [(b, 1)]
  | (k, n) :: r, b => if k == b then (k, n + 1) :: r else (k, n) :: bumpCount r b

/-- Indentation as text. -/
def indentStr (n : Nat) : String := String.mk (List.replicate n ' ')

/-- One keyword argument of the generated accessor call. -/
def kwargText (kw : String × String) : String := ", " ++ kw.1 ++ "=" ++ kw.2

/-- The generated accessor call: prompt id, then the template literal in
non-clean mode, then one keyword argument per part in order. -/
def callText (pid : String) (tmpl : Option String)
    (kwargs : List (String × String)) : String :=
  "p(\"" ++ pid ++ "\""
    ++ (match tmpl with
        | some s => ", \"" ++ s ++ "\""
        | none => "")
    ++ String.join (kwargs.map kwargText) ++ ")"

/-- Verbatim source text of a statement. -/
def stmtText : Stmt → String
  | .assignStr i t v => indentStr i ++ t ++ " = \"" ++ v ++ "\""
  | .assignFStr i t segs => indentStr i ++ t ++ " = f\"" ++ fstringText segs ++ "\""
  | .assignPCall i t pid tmpl kwargs =>
    indentStr i ++ t ++ " = " ++ callText pid tmpl kwargs
  | .importP => "from prompt_vcs import p"
  | .futureImport names => "from __future__ import " ++ names
  | .other text => text

/-- The replacement statement for a qualifying assignment: the same
target and indentation, assigned the accessor call.  In clean mode the
inline template is omitted (the content lives in the template store). -/
def mkNewStmt (s : Stmt) (pid : String) (ci : CandInfo) (clean : Bool) : Stmt :=
  match s with
  | .assignStr i t _ =>
    .assignPCall i t pid (if clean then none else some ci.template) ci.bound_params
  | .assignFStr i t _ =>
    .assignPCall i t pid (if clean then none else some ci.template) ci.bound_params
  | s => s

/-- The candidate record for a qualifying statement. -/
def mkCand (line : Nat) (s ns : Stmt) (ci : CandInfo) (pid : String) :
    MigrationCandidate :=
  ⟨line, ci.variable_name, pid, stmtText s, stmtText ns, ci.template, ci.bound_params⟩

/-- Modelled from the spec: the scanner/rewriter recursion over the
statement list.  Returns the rewritten statements (every qualifying
assignment replaced by its accessor call) and the candidate list in
source order, assigning line numbers positionally and disambiguating
prompt identifiers with numeric suffixes in order of appearance. -/
def scanAux (clean : Bool) : Nat → List (String × Nat) → List Stmt →
    List Stmt × List MigrationCandidate
  | _, _, [] => ([], [])
  | n, counts, s :: rest =>
    match candOf s with
    | none =>
      let r := scanAux clean (n + 1) counts rest
      (s :: r.1, r.2)
    | some ci =>
      let base := ci.variable_name.toLower
      let pid := mkPromptId counts base
      let ns := mkNewStmt s pid ci clean
      let r := scanAux clean (n + 1) (bumpCount counts base) rest
      (ns :: r.1, mkCand n s ns ci pid :: r.2)

/-- The rewritten statement list (before import insertion). -/
def rewrittenStmts (stmts : List Stmt) (clean : Bool) : List Stmt :=
  (scanAux clean 1 [] stmts).1

/-- The ordered candidate list the scanner reports for a file. -/
def scanCands (stmts : List Stmt) (clean : Bool) : List MigrationCandidate :=
  (scanAux clean 1 [] stmts).2

/-- Is this statement the runtime-accessor import? -/
def isImportP : Stmt → Bool
  | .importP => true
  | _ => false

/-- Is this statement a `from __future__ import ...` declaration? -/
def isFutureB : Stmt → Bool
  | .futureImport _ => true
  | _ => false

/-- Number of runtime-accessor import statements in a file. -/
def countImports (stmts : List Stmt) : Nat := (stmts.filter isImportP).length

/-- Insert the accessor import after the leading contiguous run of
future-behavior declarations. -/
def insertAfterFuture : List Stmt → List Stmt
  | .futureImport s :: rest => .futureImport s :: insertAfterFuture rest
  | rest => .importP :: rest

/-- Modelled from the spec: ensure the accessor import exists exactly
once — inserted after any leading future imports when absent, never
duplicated when already present. -/
def ensureImport (stmts : List Stmt) : List Stmt :=
  if stmts.any isImportP then stmts else insertAfterFuture stmts

/-- Modelled from the spec: `migrate_file_content`.  Scans the statement
list for candidates; when `apply` is set and at least one candidate was
found, returns the rewritten statements with the accessor import ensured,
otherwise returns the input unchanged.  Always returns the candidate
list. -/
def migrate_file_content (stmts : List Stmt) (apply clean : Bool) :
    List Stmt × List MigrationCandidate :=
  let cands := scanCands stmts clean
  if apply && !cands.isEmpty then (ensureImport (rewrittenStmts stmts clean), cands)
  else (stmts, cands)

/-- The stored format-spec suffix of a part (empty when absent). -/
def partSuffix (p : FStringPart) : String :=
  match p.format_spec with
  | none => ""
  | some f => f

/-- Dropping a prefix by predicate never lengthens a list. -/
theorem dropWhile_len_le (p : Char → Bool) (l : List Char) :
    (l.dropWhile p).length ≤ l.length := by
  induction l with
  | nil => simp
  | cons c cs ih =>
    simp only [List.dropWhile]
    split
    · simp only [List.length_cons]; omega
    · simp

/-- Re-substitution of the decomposer's parts into its template: scan the
template left to right; each brace group whose content matches the next
part's placeholder (with its format-spec suffix) is replaced by that
part's original expression text (with the same suffix); everything else
is copied verbatim. -/
def reassembleAux : List Char → List FStringPart → List Char
  | [], _ => []
  | c :: cs, parts =>
    if c == '\x7b' then
      let content := cs.takeWhile (fun d => !(d == '\x7d'))
      let rest := (cs.dropWhile (fun d => !(d == '\x7d'))).drop 1
      match parts with
      | [] => '\x7b' :: content ++ '\x7d' :: reassembleAux rest []
      | p :: ps =>
        if content == (p.placeholder ++ partSuffix p).data then
          '\x7b' :: (p.expression ++ partSuffix p).data ++ '\x7d' :: reassembleAux rest ps
        else
          '\x7b' :: content ++ '\x7d' :: reassembleAux rest (p :: ps)
    else
      c :: reassembleAux cs parts
termination_by cs _ => cs.length
decreasing_by
  all_goals simp only [List.length_cons]
  · have h1 := dropWhile_len_le (fun d => !(d == '\x7d')) cs
    have h2 := List.length_drop 1 (cs.dropWhile (fun d => !(d == '\x7d')))
    omega
  · have h1 := dropWhile_len_le (fun d => !(d == '\x7d')) cs
    have h2 := List.length_drop 1 (cs.dropWhile (fun d => !(d == '\x7d')))
    omega
  · have h1 := dropWhile_len_le (fun d => !(d == '\x7d')) cs
    have h2 := List.length_drop 1 (cs.dropWhile (fun d => !(d == '\x7d')))
    omega
  · omega

/-- String-level wrapper for re-substitution. -/
def reassemble (template : String) (parts : List FStringPart) : String :=
  String.mk (reassembleAux template.data parts)

/-- A file-system operation performed by the `switch` command, in order:
the version-file existence check, the lockfile read, the lockfile
write. -/
inductive FileOp where
  | checkVersionFile
  | readLockfile
  | writeLockfile
deriving DecidableEq, Repr

/-- The environment `switch` runs in: whether the requested version's
YAML file `prompts/<prompt_id>/<version>.yaml` exists, and the current
lockfile content (a JSON object, modelled as an association list). -/
structure SwitchEnv where
  versionFileExists : Bool
  lockfile : List (String × String)
deriving DecidableEq, Repr

/-- JSON-object key update: replace the value in place when the key is
present, append the pair otherwise (`lockfile[prompt_id] = version`). -/
def setKey : List (String × String) → String → String → List (String × String)
  | [], k, v => [(k, v)]
  | (k0, v0) :: r, k, v =>
    if k0 == k then (k0, v) :: r else (k0, v0) :: setKey r k v

/-- Exit status of a `switch` invocation: error exit with a code, or
success. -/
inductive SwitchResult where
  | exited (code : Nat)
  | ok
deriving DecidableEq, Repr

/-- Embedding of `cli.py:switch` (lines 287-312), given a resolved
project root: check that the requested version's YAML file exists — if
not, exit with code 1 before touching the lockfile; otherwise read the
lockfile, set the entry for the prompt id, and write it back.  Returns
the result, the lockfile content on disk afterwards, and the trace of
file operations. -/
def switchCmd (env : SwitchEnv) (prompt_id version : String) :
    SwitchResult × List (String × String) × List FileOp :=
  if !env.versionFileExists then
    (.exited 1, env.lockfile, [.checkVersionFile])
  else
    let lockfile := env.lockfile
    let lockfile' := setKey lockfile prompt_id version
    (.ok, lockfile', [.checkVersionFile, .readLockfile, .writeLockfile])

/-- Every decimal digit character is an identifier character. -/
theorem digitChar_ident (n : Nat) : isIdentChar (digitChar n) = true := by
  rcases n with _|_|_|_|_|_|_|_|_|n
  all_goals first
    | decide
    | (show isIdentChar '9' = true; decide)

/-- Every character of a decimal rendering is an identifier character. -/
theorem natDigits_all_ident (n : Nat) : (natDigits n).all isIdentChar = true := by
  induction n using Nat.strong_induction_on with
  | _ n ih =>
    rw [natDigits]
    split
    · simp [digitChar_ident]
    · next h =>
      have hlt : n / 10 < n := Nat.div_lt_self (by omega) (by omega)
      simp [List.all_append, ih (n / 10) hlt, digitChar_ident]

/-- String concatenation acts as concatenation on character data. -/
theorem str_data_append (s t : String) : (s ++ t).data = s.data ++ t.data := rfl

/-- Identifier validity implies every character is an identifier
character. -/
theorem all_ident_of_valid {s : List Char} (h : validIdentChars s = true) :
    s.all isIdentChar = true := by
  cases s with
  | nil => simp [validIdentChars] at h
  | cons c cs =>
    simp only [validIdentChars, Bool.and_eq_true, Bool.or_eq_true] at h
    obtain ⟨h1, h2⟩ := h
    simp only [List.all_cons, Bool.and_eq_true]
    refine ⟨?_, h2⟩
    rcases h1 with h1 | h1
    · simp [isIdentChar, Char.isAlphanum, h1]
    · simp [isIdentChar, h1]

/-- Appending an underscore and identifier characters preserves
identifier validity. -/
theorem validIdentChars_append {xs ys : List Char}
    (hx : validIdentChars xs = true) (hy : ys.all isIdentChar = true) :
    validIdentChars (xs ++ '_' :: ys) = true := by
  cases xs with
  | nil => simp [validIdentChars] at hx
  | cons c cs =>
    simp only [validIdentChars, Bool.and_eq_true] at hx
    obtain ⟨h1, h2⟩ := hx
    simp [validIdentChars, h1, List.all_append, h2, List.all_cons, hy, isIdentChar]

/-- C6 helper: the classifier accepts exactly the simple access chains. -/
theorem sanitize_valid_of_wf {e : PyExpr}
    (hs : is_complex_expression e = false) (hw : wfChain e = true) :
    isValidIdentifier (sanitize_variable_name e) = true := by
  induction e with
  | name s =>
    simpa [wfChain, sanitize_variable_name] using hw
  | attr b f ih =>
    simp only [is_complex_expression] at hs
    simp only [wfChain, Bool.and_eq_true] at hw
    obtain ⟨hwb, hwf⟩ := hw
    have hvb := ih hs hwb
    simp only [sanitize_variable_name, isValidIdentifier] at hvb ⊢
    rw [str_data_append, str_data_append]
    have : ("_" : String).data ++ f.data = '_' :: f.data := rfl
    rw [List.append_assoc, this]
    exact validIdentChars_append hvb (all_ident_of_valid hwf)
  | subStr b k ih =>
    simp only [is_complex_expression] at hs
    simp only [wfChain, Bool.and_eq_true] at hw
    obtain ⟨hwb, hwk⟩ := hw
    have hvb := ih hs hwb
    simp only [sanitize_variable_name, isValidIdentifier] at hvb ⊢
    rw [str_data_append, str_data_append]
    have : ("_" : String).data ++ k.data = '_' :: k.data := rfl
    rw [List.append_assoc, this]
    exact validIdentChars_append hvb hwk
  | subInt b n ih =>
    simp only [is_complex_expression] at hs
    simp only [wfChain] at hw
    have hvb := ih hs hw
    simp only [sanitize_variable_name, isValidIdentifier] at hvb ⊢
    rw [str_data_append, str_data_append]
    have hd : (natToStr n).data = natDigits n := rfl
    have : ("_" : String).data ++ (natToStr n).data = '_' :: natDigits n := by
      rw [hd]; rfl
    rw [List.append_assoc, this]
    exact validIdentChars_append hvb (natDigits_all_ident n)
  | callE t => simp [is_complex_expression] at hs
  | binOp t => simp [is_complex_expression] at hs
  | condE t => simp [is_complex_expression] at hs
  | subAny b k ih => simp [is_complex_expression] at hs

/-- C5/C7 helper: an interpolation that is complex, or whose sanitized
name is not a valid identifier, forces the decomposer's complex flag. -/
theorem extractAux_flag_of_bad :
    ∀ (segs : List FSeg) (seen : List String) (e : PyExpr) (fmt : Option String),
      FSeg.interp e fmt ∈ segs →
      (is_complex_expression e = true ∨
        isValidIdentifier (sanitize_variable_name e) = false) →
      (extractAux seen segs).2.2 = true := by
  intro segs
  induction segs with
  | nil => intro seen e fmt hmem; simp at hmem
  | cons s rest ih =>
    intro seen e fmt hmem hbad
    rcases List.mem_cons.mp hmem with heq | hmem'
    · subst heq
      by_cases hc : is_complex_expression e
      · simp [extractAux, hc]
      · rcases hbad with hbad | hbad
        · exact absurd hbad hc
        · simp [extractAux, hc, hbad]
    · cases s with
      | lit t =>
        simp only [extractAux]
        exact ih seen e fmt hmem' hbad
      | interp e' fmt' =>
        by_cases hc : is_complex_expression e'
        · simp [extractAux, hc]
        · rw [Bool.not_eq_true] at hc
          simp only [extractAux, hc, Bool.false_eq_true, if_false]
          split
          · exact ih _ e fmt hmem' hbad
          · rfl

/-- C6: `is_complex_expression` returns false iff the expression is a
bare identifier, a chain of attribute accesses, or a subscript access
with a string or integer literal key (chains allowed); calls, operators,
conditional expressions and subscripts with non-literal keys are
complex. -/
theorem claim_C6_classifier_simple_iff (e : PyExpr) :
    is_complex_expression e = false ↔ SimpleAccess e := by
  induction e with
  | name s => exact ⟨fun _ => .name s, fun _ => rfl⟩
  | attr b f ih =>
    constructor
    · intro h; exact .attr f (ih.mp h)
    · intro h
      cases h with
      | attr _ hb => exact ih.mpr hb
  | subStr b k ih =>
    constructor
    · intro h; exact .subStr k (ih.mp h)
    · intro h
      cases h with
      | subStr _ hb => exact ih.mpr hb
  | subInt b n ih =>
    constructor
    · intro h; exact .subInt n (ih.mp h)
    · intro h
      cases h with
      | subInt _ hb => exact ih.mpr hb
  | callE t => exact ⟨fun h => by simp [is_complex_expression] at h, fun h => nomatch h⟩
  | binOp t => exact ⟨fun h => by simp [is_complex_expression] at h, fun h => nomatch h⟩
  | condE t => exact ⟨fun h => by simp [is_complex_expression] at h, fun h => nomatch h⟩
  | subAny b k ih =>
    exact ⟨fun h => by simp [is_complex_expression] at h, fun h => nomatch h⟩

/-- C7: on a well-formed simple access chain, `sanitize_variable_name`
applies the left-to-right rules (dots, string keys and integer keys each
become an underscore-joined component) and yields a valid bare
identifier; an interpolation whose sanitized name is not a valid
identifier (for instance one that would start with a digit) is treated
as complex by the decomposer instead of emitting an invalid name. -/
theorem claim_C7_sanitize_valid_identifier (e : PyExpr)
    (h1 : is_complex_expression e = false) (h2 : wfChain e = true) :
    isValidIdentifier (sanitize_variable_name e) = true ∧
    (∀ (b : PyExpr) (f : String),
      sanitize_variable_name (.attr b f) = sanitize_variable_name b ++ "_" ++ f) ∧
    (∀ (b : PyExpr) (k : String),
      sanitize_variable_name (.subStr b k) = sanitize_variable_name b ++ "_" ++ k) ∧
    (∀ (b : PyExpr) (n : Nat),
      sanitize_variable_name (.subInt b n)
        = sanitize_variable_name b ++ "_" ++ natToStr n) ∧
    (∀ (segs : List FSeg) (e' : PyExpr) (fmt : Option String),
      FSeg.interp e' fmt ∈ segs →
      isValidIdentifier (sanitize_variable_name e') = false →
      (extract_fstring_parts segs).2.2 = true) := by
  refine ⟨sanitize_valid_of_wf h1 h2, fun _ _ => rfl, fun _ _ => rfl, fun _ _ => rfl,
    fun segs e' fmt hmem hbad => ?_⟩
  exact extractAux_flag_of_bad segs [] e' fmt hmem (Or.inr hbad)

/-- C7 witness: a concrete well-formed access chain sanitizes to a valid
identifier. -/
theorem claim_C7_witness :
    isValidIdentifier
      (sanitize_variable_name (.subStr (.attr (.name "user") "data") "score"))
      = true :=
  (claim_C7_sanitize_valid_identifier (.subStr (.attr (.name "user") "data") "score")
    (by decide) (by decide)).1

/-- C1 helper: any statement-level candidate's variable name is in the
recognized set. -/
theorem candOf_recognized {s : Stmt} {ci : CandInfo} (h : candOf s = some ci) :
    RECOGNIZED_NAMES.contains ci.variable_name = true := by
  cases s with
  | assignStr i t v =>
    simp only [candOf] at h
    split at h
    · next hcond =>
      cases h
      simp only [Bool.and_eq_true] at hcond
      exact hcond.1
    · exact absurd h (by simp)
  | assignFStr i t segs =>
    simp only [candOf] at h
    split at h
    · next hcond =>
      cases h
      simp only [Bool.and_eq_true] at hcond
      exact hcond.1.1
    · exact absurd h (by simp)
  | assignPCall i t pid tmpl kwargs => exact absurd h (by simp [candOf])
  | importP => exact absurd h (by simp [candOf])
  | futureImport names => exact absurd h (by simp [candOf])
  | other text => exact absurd h (by simp [candOf])

/-- C1 helper: every candidate the scanner reports carries a recognized
variable name. -/
theorem scanAux_var_recognized :
    ∀ (stmts : List Stmt) (clean : Bool) (n : Nat) (counts : List (String × Nat))
      (c : MigrationCandidate), c ∈ (scanAux clean n counts stmts).2 →
      RECOGNIZED_NAMES.contains c.variable_name = true := by
  intro stmts
  induction stmts with
  | nil => intro clean n counts c h; simp [scanAux] at h
  | cons s rest ih =>
    intro clean n counts c h
    simp only [scanAux] at h
    cases hc : candOf s with
    | none =>
      rw [hc] at h
      exact ih clean (n + 1) counts c h
    | some ci =>
      rw [hc] at h
      simp only [List.mem_cons] at h
      rcases h with h | h
      · subst h
        exact candOf_recognized hc
      · exact ih clean (n + 1) _ c h

/-- C1: an assignment whose target is not a case-sensitive exact member
of the recognized set of prompt-variable names is never a candidate,
whatever the shape or length of its right-hand side; consequently every
reported candidate carries a recognized variable name. -/
theorem claim_C1_unrecognized_never_candidate
    (i : Nat) (t v : String) (segs : List FSeg)
    (h : RECOGNIZED_NAMES.contains t = false) :
    candOf (.assignStr i t v) = none ∧
    candOf (.assignFStr i t segs) = none ∧
    (∀ (stmts : List Stmt) (clean : Bool) (c : MigrationCandidate),
      c ∈ scanCands stmts clean → RECOGNIZED_NAMES.contains c.variable_name = true) := by
  have h' : ¬ t ∈ RECOGNIZED_NAMES := by simpa using h
  refine ⟨by simp [candOf, h'], by simp [candOf, h'], ?_⟩
  intro stmts clean c hmem
  exact scanAux_var_recognized stmts clean 1 [] c hmem

/-- C1 witness: `message = "This is a long message that should not be
migrated"` is not a candidate. -/
theorem claim_C1_witness :
    candOf (.assignStr 0 "message" "This is a long message that should not be migrated")
      = none :=
  (claim_C1_unrecognized_never_candidate 0 "message"
    "This is a long message that should not be migrated" [] (by decide)).1

/-- C5: an f-string containing at least one complex interpolation gets
`has_complex` set, its containing assignment is never a candidate, and
migrating a file holding it leaves the file unchanged with an empty
candidate list (the exclusion is silent: the scan is total and reports
no error). -/
theorem claim_C5_complex_interp_excluded
    (i : Nat) (t : String) (segs : List FSeg) (e : PyExpr) (fmt : Option String)
    (hmem : FSeg.interp e fmt ∈ segs) (hc : is_complex_expression e = true) :
    (extract_fstring_parts segs).2.2 = true ∧
    candOf (.assignFStr i t segs) = none ∧
    (∀ apply clean : Bool,
      migrate_file_content [.assignFStr i t segs] apply clean
        = ([.assignFStr i t segs], [])) := by
  have hflag : (extract_fstring_parts segs).2.2 = true :=
    extractAux_flag_of_bad segs [] e fmt hmem (Or.inl hc)
  have hnone : candOf (.assignFStr i t segs) = none := by
    simp [candOf, hflag]
  refine ⟨hflag, hnone, ?_⟩
  intro apply clean
  simp [migrate_file_content, scanCands, scanAux, hnone, rewrittenStmts]

/-- C5 witness: `complex_prompt = f"Result: {func()}"` yields zero
candidates and leaves the file unchanged. -/
theorem claim_C5_witness :
    candOf (.assignFStr 0 "complex_prompt"
      [.lit "Result: ", .interp (.callE "func()") none]) = none :=
  (claim_C5_complex_interp_excluded 0 "complex_prompt"
    [.lit "Result: ", .interp (.callE "func()") none]
    (.callE "func()") none (by decide) (by decide)).2.1

/-- C9: a recognized-name assignment whose literal or decomposed template
text is shorter than the threshold is never a candidate, and a file whose
scan yields zero candidates is returned unchanged by migration. -/
theorem claim_C9_short_content_skipped
    (i : Nat) (t v : String) (segs : List FSeg)
    (h1 : v.length < MIN_CONTENT_LENGTH)
    (h2 : (extract_fstring_parts segs).1.length < MIN_CONTENT_LENGTH) :
    candOf (.assignStr i t v) = none ∧
    candOf (.assignFStr i t segs) = none ∧
    (∀ (stmts : List Stmt) (apply clean : Bool),
      scanCands stmts clean = [] →
      migrate_file_content stmts apply clean = (stmts, [])) := by
  have h1' : ¬ MIN_CONTENT_LENGTH ≤ v.length := by omega
  have h2' : ¬ MIN_CONTENT_LENGTH ≤ (extract_fstring_parts segs).1.length := by omega
  refine ⟨by simp [candOf, h1'], by simp [candOf, h2'], ?_⟩
  intro stmts apply clean hscan
  simp [migrate_file_content, hscan]

/-- C9 witness: `prompt = "Short"` yields zero candidates and the file is
unchanged. -/
theorem claim_C9_witness :
    candOf (.assignStr 0 "prompt" "Short") = none ∧
    migrate_file_content [.assignStr 0 "prompt" "Short"] true false
      = ([.assignStr 0 "prompt" "Short"], []) := by
  have h := claim_C9_short_content_skipped 0 "prompt" "Short" [] (by decide) (by decide)
  exact ⟨h.1, h.2.2 [.assignStr 0 "prompt" "Short"] true false (by decide)⟩

/-- C10: when the requested version's YAML file does not exist, `switch`
exits with code 1 having only checked for the file — the lockfile is
neither read nor written and its content is unchanged; and in every run
the lockfile is written only after the existence check has succeeded. -/
theorem claim_C10_switch_checks_before_write
    (env : SwitchEnv) (pid ver : String) (h : env.versionFileExists = false) :
    switchCmd env pid ver = (.exited 1, env.lockfile, [.checkVersionFile]) ∧
    (∀ (env' : SwitchEnv) (pid' ver' : String),
      FileOp.writeLockfile ∈ (switchCmd env' pid' ver').2.2 →
        env'.versionFileExists = true ∧
        (switchCmd env' pid' ver').2.1 = setKey env'.lockfile pid' ver' ∧
        (switchCmd env' pid' ver').1 = .ok) := by
  constructor
  · simp [switchCmd, h]
  · intro env' pid' ver' hmem
    by_cases hv : env'.versionFileExists
    · simp [switchCmd, hv]
    · simp [switchCmd, hv] at hmem

/-- C10 witness: with the version file missing, `switch` leaves a
concrete lockfile untouched and performs only the existence check. -/
theorem claim_C10_witness :
    switchCmd ⟨false, [("greeting", "v1")]⟩ "greeting" "v2"
      = (.exited 1, [("greeting", "v1")], [.checkVersionFile]) :=
  (claim_C10_switch_checks_before_write ⟨false, [("greeting", "v1")]⟩
    "greeting" "v2" (by decide)).1

/-- The replacement statement for a qualifying assignment is never itself
a qualifying assignment pattern. -/
theorem candOf_mkNewStmt {s : Stmt} {ci : CandInfo} (pid : String) (clean : Bool)
    (h : candOf s = some ci) : candOf (mkNewStmt s pid ci clean) = none := by
  cases s with
  | assignStr i t v => rfl
  | assignFStr i t segs => rfl
  | assignPCall i t p tm kw => exact absurd h (by simp [candOf])
  | importP => exact absurd h (by simp [candOf])
  | futureImport names => exact absurd h (by simp [candOf])
  | other text => exact absurd h (by simp [candOf])

/-- Every statement in the rewritten list fails the candidate test. -/
theorem scanAux_output_none :
    ∀ (stmts : List Stmt) (clean : Bool) (n : Nat) (counts : List (String × Nat))
      (s : Stmt), s ∈ (scanAux clean n counts stmts).1 → candOf s = none := by
  intro stmts
  induction stmts with
  | nil => intro clean n counts s h; simp [scanAux] at h
  | cons s0 rest ih =>
    intro clean n counts s h
    simp only [scanAux] at h
    cases hc : candOf s0 with
    | none =>
      rw [hc] at h
      simp only [List.mem_cons] at h
      rcases h with h | h
      · subst h; exact hc
      · exact ih clean (n + 1) counts s h
    | some ci =>
      rw [hc] at h
      simp only [List.mem_cons] at h
      rcases h with h | h
      · subst h; exact candOf_mkNewStmt _ clean hc
      · exact ih clean (n + 1) _ s h

/-- Scanning a list of statements that all fail the candidate test
returns the list unchanged and reports no candidates. -/
theorem scanAux_of_all_none :
    ∀ (stmts : List Stmt) (clean : Bool) (n : Nat) (counts : List (String × Nat)),
      (∀ s ∈ stmts, candOf s = none) →
      scanAux clean n counts stmts = (stmts, []) := by
  intro stmts
  induction stmts with
  | nil => intro clean n counts _; rfl
  | cons s0 rest ih =>
    intro clean n counts h
    have h0 : candOf s0 = none := h s0 (List.mem_cons_self s0 rest)
    have hrest : ∀ s ∈ rest, candOf s = none := fun s hs => h s (List.mem_cons_of_mem s0 hs)
    simp only [scanAux, h0]
    rw [ih clean (n + 1) counts hrest]

/-- Import insertion only adds the accessor import. -/
theorem mem_insertAfterFuture :
    ∀ (l : List Stmt) (s : Stmt), s ∈ insertAfterFuture l → s = .importP ∨ s ∈ l := by
  intro l
  induction l with
  | nil =>
    intro s h
    simp only [insertAfterFuture] at h
    simp at h
    exact Or.inl h
  | cons s0 rest ih =>
    intro s h
    cases s0 with
    | futureImport names =>
      simp only [insertAfterFuture, List.mem_cons] at h
      rcases h with h | h
      · exact Or.inr (by simp [h])
      · rcases ih s h with h' | h'
        · exact Or.inl h'
        · exact Or.inr (List.mem_cons_of_mem _ h')
    | assignStr i t v =>
      simp only [insertAfterFuture, List.mem_cons] at h
      rcases h with h | h
      · exact Or.inl h
      · exact Or.inr (by simp [h])
    | assignFStr i t segs =>
      simp only [insertAfterFuture, List.mem_cons] at h
      rcases h with h | h
      · exact Or.inl h
      · exact Or.inr (by simp [h])
    | assignPCall i t p tm kw =>
      simp only [insertAfterFuture, List.mem_cons] at h
      rcases h with h | h
      · exact Or.inl h
      · exact Or.inr (by simp [h])
    | importP =>
      simp only [insertAfterFuture, List.mem_cons] at h
      rcases h with h | h
      · exact Or.inl h
      · exact Or.inr (by simp [h])
    | other text =>
      simp only [insertAfterFuture, List.mem_cons] at h
      rcases h with h | h
      · exact Or.inl h
      · exact Or.inr (by simp [h])

/-- The accessor import fails the candidate test. -/
theorem candOf_importP : candOf .importP = none := rfl

/-- Shared helper for C3 and C4: after applying all candidates, a second
scan of the rewritten file reports zero candidates. -/
theorem scan_after_apply (stmts : List Stmt) (clean : Bool) :
    scanCands (migrate_file_content stmts true clean).1 clean = [] ∧
    (∀ s ∈ (migrate_file_content stmts true clean).1, candOf s = none) ∨
    migrate_file_content stmts true clean = (stmts, scanCands stmts clean)
      ∧ scanCands stmts clean = [] := by
  by_cases hempty : (scanCands stmts clean).isEmpty
  · right
    have he : scanCands stmts clean = [] := by simpa [List.isEmpty_iff] using hempty
    constructor
    · simp [migrate_file_content, he]
    · exact he
  · left
    have hout : (migrate_file_content stmts true clean).1
        = ensureImport (rewrittenStmts stmts clean) := by
      simp only [migrate_file_content]
      rw [if_pos (by simp [scanCands] at hempty ⊢; simpa using hempty)]
    have hall : ∀ s ∈ (migrate_file_content stmts true clean).1, candOf s = none := by
      intro s hs
      rw [hout] at hs
      unfold ensureImport at hs
      split at hs
      · exact scanAux_output_none stmts clean 1 [] s hs
      · rcases mem_insertAfterFuture _ s hs with h | h
        · subst h; exact candOf_importP
        · exact scanAux_output_none stmts clean 1 [] s h
    refine ⟨?_, hall⟩
    have := scanAux_of_all_none (migrate_file_content stmts true clean).1 clean 1 [] hall
    simp [scanCands, this]

/-- C4: migration is idempotent at the file level — after applying all
candidates, scanning the rewritten statements yields zero candidates,
because the generated accessor-call assignment is not itself a
qualifying assignment pattern. -/
theorem claim_C4_migration_idempotent (stmts : List Stmt) (clean : Bool) :
    scanCands (migrate_file_content stmts true clean).1 clean = [] ∧
    (∀ (i : Nat) (t pid : String) (tm : Option String)
      (kw : List (String × String)),
      candOf (.assignPCall i t pid tm kw) = none) := by
  refine ⟨?_, fun _ _ _ _ _ => rfl⟩
  rcases scan_after_apply stmts clean with ⟨h, _⟩ | ⟨h1, h2⟩
  · exact h
  · rw [h1]
    exact h2

/-- Counting imports distributes over cons. -/
theorem countImports_cons (s : Stmt) (l : List Stmt) :
    countImports (s :: l) = (if isImportP s then 1 else 0) + countImports l := by
  cases h : isImportP s <;> simp [countImports, List.filter_cons, h, Nat.add_comm]

/-- A qualifying assignment and its replacement are not the accessor
statement that does the importing. -/
theorem isImportP_mkNewStmt {s : Stmt} {ci : CandInfo} (pid : String) (clean : Bool)
    (h : candOf s = some ci) :
    isImportP (mkNewStmt s pid ci clean) = false ∧ isImportP s = false := by
  cases s with
  | assignStr i t v => exact ⟨rfl, rfl⟩
  | assignFStr i t segs => exact ⟨rfl, rfl⟩
  | assignPCall i t p tm kw => exact absurd h (by simp [candOf])
  | importP => exact absurd h (by simp [candOf])
  | futureImport names => exact absurd h (by simp [candOf])
  | other text => exact absurd h (by simp [candOf])

/-- Rewriting candidates preserves the number of accessor imports. -/
theorem scanAux_countImports :
    ∀ (stmts : List Stmt) (clean : Bool) (n : Nat) (counts : List (String × Nat)),
      countImports (scanAux clean n counts stmts).1 = countImports stmts := by
  intro stmts
  induction stmts with
  | nil => intro clean n counts; rfl
  | cons s0 rest ih =>
    intro clean n counts
    simp only [scanAux]
    cases hc : candOf s0 with
    | none =>
      simp only [countImports_cons, ih clean (n + 1) counts]
    | some ci =>
      obtain ⟨h1, h2⟩ := isImportP_mkNewStmt (mkPromptId counts ci.variable_name.toLower)
        clean hc
      simp [countImports_cons, h1, h2, ih clean (n + 1)]

/-- A file has no accessor import iff its import count is zero. -/
theorem countImports_zero_iff (l : List Stmt) :
    countImports l = 0 ↔ l.any isImportP = false := by
  induction l with
  | nil => simp [countImports]
  | cons s r ih =>
    rw [countImports_cons]
    cases h : isImportP s <;> simp [h, ih]

/-- Inserting the accessor import adds exactly one. -/
theorem countImports_insertAfterFuture :
    ∀ (l : List Stmt), countImports (insertAfterFuture l) = countImports l + 1 := by
  intro l
  induction l with
  | nil => rfl
  | cons s r ih =>
    cases s <;> simp [insertAfterFuture, countImports_cons, isImportP, ih] <;> omega

/-- The inserted import lands after the leading contiguous run of
future imports and before all other statements. -/
theorem insertAfterFuture_eq (l : List Stmt) :
    insertAfterFuture l
      = l.takeWhile isFutureB ++ .importP :: l.dropWhile isFutureB := by
  induction l with
  | nil => rfl
  | cons s r ih =>
    cases s with
    | futureImport names =>
      simp only [insertAfterFuture, ih, List.takeWhile_cons, List.dropWhile_cons]
      have : isFutureB (.futureImport names) = true := rfl
      simp [this]
    | assignStr i t v =>
      simp [insertAfterFuture, List.takeWhile_cons, List.dropWhile_cons, isFutureB]
    | assignFStr i t segs =>
      simp [insertAfterFuture, List.takeWhile_cons, List.dropWhile_cons, isFutureB]
    | assignPCall i t p tm kw =>
      simp [insertAfterFuture, List.takeWhile_cons, List.dropWhile_cons, isFutureB]
    | importP =>
      simp [insertAfterFuture, List.takeWhile_cons, List.dropWhile_cons, isFutureB]
    | other text =>
      simp [insertAfterFuture, List.takeWhile_cons, List.dropWhile_cons, isFutureB]

/-- Migration of a file with no candidates returns it unchanged. -/
theorem migrate_eq_of_scan_nil {l : List Stmt} {apply clean : Bool}
    (h : scanCands l clean = []) : migrate_file_content l apply clean = (l, []) := by
  simp [migrate_file_content, h]

/-- C3: rewriting a file with at least one candidate leaves exactly one
accessor import in the output (given the input has at most one); when
the import was absent it is inserted after the leading contiguous run of
future-behavior declarations and before all other statements; and
re-running migration on the output changes nothing, so the import is
never duplicated over any number of repeated runs. -/
theorem claim_C3_import_exactly_once (stmts : List Stmt) (clean : Bool)
    (h1 : countImports stmts ≤ 1) (h2 : scanCands stmts clean ≠ []) :
    countImports (migrate_file_content stmts true clean).1 = 1 ∧
    (stmts.any isImportP = false →
      (migrate_file_content stmts true clean).1
        = (rewrittenStmts stmts clean).takeWhile isFutureB
            ++ .importP :: (rewrittenStmts stmts clean).dropWhile isFutureB) ∧
    migrate_file_content (migrate_file_content stmts true clean).1 true clean
      = ((migrate_file_content stmts true clean).1, []) := by
  have hne : (scanCands stmts clean).isEmpty = false := by
    cases hsc : scanCands stmts clean with
    | nil => exact absurd hsc h2
    | cons a l => rfl
  have hout : (migrate_file_content stmts true clean).1
      = ensureImport (rewrittenStmts stmts clean) := by
    simp only [migrate_file_content]
    rw [if_pos (by simp [hne])]
  have hcnt : countImports (rewrittenStmts stmts clean) = countImports stmts :=
    scanAux_countImports stmts clean 1 []
  refine ⟨?_, ?_, ?_⟩
  · rw [hout]
    unfold ensureImport
    split
    · next hany =>
      have hnz : countImports (rewrittenStmts stmts clean) ≠ 0 := by
        intro h0
        rw [countImports_zero_iff] at h0
        rw [hany] at h0
        exact absurd h0 (by simp)
      omega
    · next hany =>
      rw [countImports_insertAfterFuture]
      have h0 : countImports (rewrittenStmts stmts clean) = 0 :=
        (countImports_zero_iff _).mpr (by simpa using hany)
      omega
  · intro hno
    have h0 : countImports stmts = 0 := (countImports_zero_iff _).mpr hno
    have h0' : (rewrittenStmts stmts clean).any isImportP = false :=
      (countImports_zero_iff _).mp (by omega)
    rw [hout]
    unfold ensureImport
    rw [if_neg (by simp [h0'])]
    exact insertAfterFuture_eq _
  · rcases scan_after_apply stmts clean with ⟨hscan, _⟩ | ⟨_, hnil⟩
    · exact migrate_eq_of_scan_nil hscan
    · exact absurd hnil h2

/-- C3 witness: a file with a future import, another import and one
migratable prompt assignment ends up with exactly one accessor import. -/
theorem claim_C3_witness :
    countImports (migrate_file_content
      [.futureImport "annotations", .other "import os",
       .assignStr 0 "prompt" "Hello world, this is a test prompt"] true false).1 = 1 :=
  (claim_C3_import_exactly_once
    [.futureImport "annotations", .other "import os",
     .assignStr 0 "prompt" "Hello world, this is a test prompt"] false
    (by decide) (by decide)).1

/-- C8 helper: each reported candidate's replacement code is the
accessor-call assignment rendered with the candidate's own prompt id and
bound parameters as the keyword arguments, in order. -/
theorem scanAux_new_code :
    ∀ (stmts : List Stmt) (clean : Bool) (n : Nat) (counts : List (String × Nat))
      (c : MigrationCandidate), c ∈ (scanAux clean n counts stmts).2 →
      ∃ (ind : Nat) (tgt : String) (tm : Option String),
        c.new_code = stmtText (.assignPCall ind tgt c.prompt_id tm c.bound_params) := by
  intro stmts
  induction stmts with
  | nil => intro clean n counts c h; simp [scanAux] at h
  | cons s0 rest ih =>
    intro clean n counts c h
    simp only [scanAux] at h
    cases hc : candOf s0 with
    | none =>
      rw [hc] at h
      exact ih clean (n + 1) counts c h
    | some ci =>
      rw [hc] at h
      simp only [List.mem_cons] at h
      rcases h with h | h
      · subst h
        cases s0 with
        | assignStr i t v =>
          exact ⟨i, t, if clean then none else some ci.template, rfl⟩
        | assignFStr i t segs =>
          exact ⟨i, t, if clean then none else some ci.template, rfl⟩
        | assignPCall i t p tm kw => exact absurd hc (by simp [candOf])
        | importP => exact absurd hc (by simp [candOf])
        | futureImport names => exact absurd hc (by simp [candOf])
        | other text => exact absurd hc (by simp [candOf])
      · exact ih clean (n + 1) _ c h

/-- C8: a plain-string candidate never populates `bound_params`; an
f-string candidate's `bound_params` lists one pair per `FStringPart` in
original left-to-right order, binding each sanitized placeholder to the
original source expression text; and every reported candidate's
replacement code is the accessor call rendered with exactly those keyword
arguments in that order. -/
theorem claim_C8_kwargs_order
    (i j : Nat) (t u v : String) (segs : List FSeg) (ci ci' : CandInfo)
    (h1 : candOf (.assignStr i t v) = some ci)
    (h2 : candOf (.assignFStr j u segs) = some ci') :
    ci.bound_params = [] ∧
    ci'.bound_params
      = (extract_fstring_parts segs).2.1.map (fun p => (p.placeholder, p.expression)) ∧
    (∀ (stmts : List Stmt) (clean : Bool) (c : MigrationCandidate),
      c ∈ scanCands stmts clean →
      ∃ (ind : Nat) (tgt : String) (tm : Option String),
        c.new_code = stmtText (.assignPCall ind tgt c.prompt_id tm c.bound_params)) := by
  refine ⟨?_, ?_, fun stmts clean c hmem => scanAux_new_code stmts clean 1 [] c hmem⟩
  · simp only [candOf] at h1
    split at h1
    · cases h1; rfl
    · exact absurd h1 (by simp)
  · simp only [candOf] at h2
    split at h2
    · cases h2; rfl
    · exact absurd h2 (by simp)

/-- C8 witness: a plain-string candidate has empty `bound_params` and an
f-string candidate binds its parts in order. -/
theorem claim_C8_witness :
    (⟨"prompt", "Hello world, this is a test prompt", []⟩ : CandInfo).bound_params = []
    ∧ (⟨"prompt", "Hello " ++ lbS ++ "name" ++ rbS ++ ", welcome to the system",
        [("name", "name")]⟩ : CandInfo).bound_params
      = (extract_fstring_parts
          [.lit "Hello ", .interp (.name "name") none,
           .lit ", welcome to the system"]).2.1.map
          (fun p => (p.placeholder, p.expression)) := by
  have h := claim_C8_kwargs_order 0 0 "prompt" "prompt"
    "Hello world, this is a test prompt"
    [.lit "Hello ", .interp (.name "name") none, .lit ", welcome to the system"]
    ⟨"prompt", "Hello world, this is a test prompt", []⟩
    ⟨"prompt", "Hello " ++ lbS ++ "name" ++ rbS ++ ", welcome to the system",
      [("name", "name")]⟩
    (by decide) (by decide)
  exact ⟨h.1, h.2.1⟩

/-- String-list membership test agrees with propositional membership. -/
theorem strMem_eq_false_iff (l : List String) (x : String) :
    strMem l x = false ↔ ¬ x ∈ l := by
  induction l with
  | nil => simp [strMem]
  | cons y r ih => simp [strMem, ih, not_or]

/-- C2 helper: on a collision-free f-string whose interpolations are all
simple with valid sanitized names (none already seen), the decomposer
returns exactly the spec template, the spec parts, and no complex
flag. -/
theorem extractAux_ideal :
    ∀ (segs : List FSeg) (seen : List String),
      allSimpleValid segs = true → phNodup (phList segs) = true →
      (∀ x ∈ phList segs, ¬ x ∈ seen) →
      extractAux seen segs = (templateSpec segs, specParts segs, false) := by
  intro segs
  induction segs with
  | nil => intro seen _ _ _; rfl
  | cons s rest ih =>
    intro seen hs hn hd
    cases s with
    | lit t =>
      simp only [allSimpleValid] at hs
      simp only [phList] at hn hd
      simp only [extractAux, templateSpec, specParts]
      rw [ih seen hs hn hd]
    | interp e fmt =>
      simp only [allSimpleValid, Bool.and_eq_true, Bool.not_eq_true'] at hs
      obtain ⟨⟨hc, hv⟩, hrest⟩ := hs
      simp only [phList, phNodup, Bool.and_eq_true, Bool.not_eq_true'] at hn
      obtain ⟨hfresh, hnodup⟩ := hn
      have hphrest : ¬ sanitize_variable_name e ∈ phList rest :=
        (strMem_eq_false_iff _ _).mp hfresh
      have hd0 : ¬ sanitize_variable_name e ∈ seen :=
        hd _ (by simp [phList])
      have hseen : strMem seen (sanitize_variable_name e) = false :=
        (strMem_eq_false_iff _ _).mpr hd0
      have hd' : ∀ x ∈ phList rest, ¬ x ∈ (sanitize_variable_name e :: seen) := by
        intro x hx
        simp only [List.mem_cons, not_or]
        refine ⟨fun heq => absurd (heq ▸ hx) hphrest, ?_⟩
        exact hd x (by simp [phList, hx])
      simp only [extractAux, hc, Bool.false_eq_true, if_false, hv, hseen,
        Bool.not_false, Bool.and_self, if_true]
      rw [ih (sanitize_variable_name e :: seen) hrest hnodup hd']
      simp [templateSpec, specParts]

/-- An identifier character is not a right brace. -/
theorem identChar_ne_rb {c : Char} (h : isIdentChar c = true) :
    (c == '\x7d') = false := by
  cases hc : c == '\x7d'
  · rfl
  · rw [eq_of_beq hc] at h
    exact absurd h (by decide)

/-- Taking up to the first right brace recovers a brace-free prefix. -/
theorem takeWhile_app_rb (content ds : List Char)
    (h : ∀ c ∈ content, (c == '\x7d') = false) :
    (content ++ '\x7d' :: ds).takeWhile (fun d => !(d == '\x7d')) = content := by
  induction content with
  | nil => simp [List.takeWhile_cons]
  | cons c cs ih =>
    have hc := h c (List.mem_cons_self c cs)
    simp [List.takeWhile_cons, hc,
      ih (fun d hd => h d (List.mem_cons_of_mem c hd))]

/-- Dropping up to the first right brace leaves it and the tail. -/
theorem dropWhile_app_rb (content ds : List Char)
    (h : ∀ c ∈ content, (c == '\x7d') = false) :
    (content ++ '\x7d' :: ds).dropWhile (fun d => !(d == '\x7d')) = '\x7d' :: ds := by
  induction content with
  | nil => simp [List.dropWhile_cons]
  | cons c cs ih =>
    have hc := h c (List.mem_cons_self c cs)
    simp [List.dropWhile_cons, hc,
      ih (fun d hd => h d (List.mem_cons_of_mem c hd))]

/-- Re-substitution copies text containing no left brace verbatim. -/
theorem reassembleAux_copy (cs : List Char) (ds : List Char)
    (parts : List FStringPart) (h : ∀ c ∈ cs, (c == '\x7b') = false) :
    reassembleAux (cs ++ ds) parts = cs ++ reassembleAux ds parts := by
  induction cs with
  | nil => simp
  | cons c cs ih =>
    have hc := h c (List.mem_cons_self c cs)
    rw [List.cons_append, reassembleAux.eq_def]
    simp only [hc, Bool.false_eq_true, if_false]
    rw [ih (fun d hd => h d (List.mem_cons_of_mem c hd))]
    rfl

/-- Re-substitution replaces a matching brace group by the part's
original expression text and consumes the part. -/
theorem reassembleAux_consume (content ds : List Char) (p : FStringPart)
    (ps : List FStringPart)
    (hnb : ∀ c ∈ content, (c == '\x7d') = false)
    (hm : content = (p.placeholder ++ partSuffix p).data) :
    reassembleAux ('\x7b' :: content ++ '\x7d' :: ds) (p :: ps)
      = '\x7b' :: (p.expression ++ partSuffix p).data ++ '\x7d' :: reassembleAux ds ps := by
  rw [reassembleAux.eq_def]
  simp [takeWhile_app_rb content ds hnb, dropWhile_app_rb content ds hnb, ← hm,
    List.drop]

/-- The data of the brace strings. -/
theorem lbS_data : lbS.data = ['\x7b'] := rfl

/-- The data of the right-brace string. -/
theorem rbS_data : rbS.data = ['\x7d'] := rfl

/-- C2 helper: on a clean, all-simple f-string, re-substituting the spec
parts into the spec template reproduces the original literal body. -/
theorem reassemble_spec :
    ∀ (segs : List FSeg), allSimpleValid segs = true → segsClean segs = true →
      reassembleAux (templateSpec segs).data (specParts segs)
        = (fstringText segs).data := by
  intro segs
  induction segs with
  | nil => intro _ _; simp [reassembleAux.eq_def, templateSpec, specParts, fstringText]
  | cons s rest ih =>
    intro hs hcl
    cases s with
    | lit t =>
      simp only [allSimpleValid] at hs
      simp only [segsClean, Bool.and_eq_true] at hcl
      obtain ⟨hall, hclr⟩ := hcl
      have hlb : ∀ c ∈ t.data, (c == '\x7b') = false := by
        intro c hcm
        have hx := List.all_eq_true.mp hall c hcm
        simp only [Bool.and_eq_true, Bool.not_eq_true'] at hx
        exact hx.1
      simp only [templateSpec, specParts, fstringText, segText, str_data_append]
      rw [reassembleAux_copy t.data _ _ hlb, ih hs hclr]
    | interp e fmt =>
      simp only [allSimpleValid, Bool.and_eq_true, Bool.not_eq_true'] at hs
      obtain ⟨⟨hc, hv⟩, hrest⟩ := hs
      simp only [segsClean, Bool.and_eq_true] at hcl
      obtain ⟨hfall, hclr⟩ := hcl
      have hphnb : ∀ c ∈ (sanitize_variable_name e).data, (c == '\x7d') = false := by
        intro c hcm
        have hids := all_ident_of_valid (s := (sanitize_variable_name e).data) hv
        exact identChar_ne_rb (List.all_eq_true.mp hids c hcm)
      have hfnb : ∀ c ∈ (fmtSuffix fmt).data, (c == '\x7d') = false := by
        intro c hcm
        have hx := List.all_eq_true.mp hfall c hcm
        simp only [Bool.and_eq_true, Bool.not_eq_true'] at hx
        exact hx.2
      have hcontentnb :
          ∀ c ∈ (sanitize_variable_name e ++ fmtSuffix fmt).data, (c == '\x7d') = false := by
        intro c hcm
        rw [str_data_append] at hcm
        rcases List.mem_append.mp hcm with hcm | hcm
        · exact hphnb c hcm
        · exact hfnb c hcm
      have hps : partSuffix
          ⟨sanitize_variable_name e, exprText e, fmtStored fmt⟩ = fmtSuffix fmt := by
        cases fmt <;> rfl
      have htm : (lbS ++ sanitize_variable_name e ++ fmtSuffix fmt ++ rbS
            ++ templateSpec rest).data
          = '\x7b' :: (sanitize_variable_name e ++ fmtSuffix fmt).data
              ++ '\x7d' :: (templateSpec rest).data := by
        simp only [str_data_append, lbS_data, rbS_data, List.append_assoc,
          List.cons_append, List.singleton_append, List.nil_append]
      have hor : (lbS ++ exprText e ++ fmtSuffix fmt ++ rbS ++ fstringText rest).data
          = '\x7b' :: (exprText e ++ fmtSuffix fmt).data
              ++ '\x7d' :: (fstringText rest).data := by
        simp only [str_data_append, lbS_data, rbS_data, List.append_assoc,
          List.cons_append, List.singleton_append, List.nil_append]
      simp only [templateSpec, specParts, fstringText, segText]
      rw [htm, hor]
      have hm : (sanitize_variable_name e ++ fmtSuffix fmt).data
          = (FStringPart.placeholder ⟨sanitize_variable_name e, exprText e, fmtStored fmt⟩
              ++ partSuffix ⟨sanitize_variable_name e, exprText e, fmtStored fmt⟩).data := by
        rw [hps]
      rw [reassembleAux_consume _ _ _ _ hcontentnb hm, hps, ih hrest hclr]

/-- Rebuilding a string from its own character data is the identity. -/
theorem str_mk_data (s : String) : String.mk s.data = s := rfl

/-- C2: for an f-string all of whose interpolations are simple (valid,
collision-free sanitized names) and whose literal segments and format
specifiers contain no brace characters, the decomposer returns the
original literal text with each interpolation replaced by its
`{placeholder}` group (`:<format_spec>` appended verbatim when present)
and byte-identical elsewhere, without the complex flag; re-substituting
each part's placeholder by its original expression reproduces the
original f-string body exactly. -/
theorem claim_C2_decompose_roundtrip (segs : List FSeg)
    (h1 : allSimpleValid segs = true) (h2 : phNodup (phList segs) = true)
    (h3 : segsClean segs = true) :
    (extract_fstring_parts segs).2.2 = false ∧
    (extract_fstring_parts segs).1 = templateSpec segs ∧
    reassemble (extract_fstring_parts segs).1 (extract_fstring_parts segs).2.1
      = fstringText segs := by
  have hideal : extract_fstring_parts segs = (templateSpec segs, specParts segs, false) :=
    extractAux_ideal segs [] h1 h2 (fun x _ => by simp)
  refine ⟨by rw [hideal], by rw [hideal], ?_⟩
  rw [hideal]
  show String.mk (reassembleAux (templateSpec segs).data (specParts segs))
    = fstringText segs
  rw [reassemble_spec segs h1 h3, str_mk_data]

/-- C2 witness: decomposing the f-string body `Hello {name}, welcome`
round-trips exactly. -/
theorem claim_C2_witness :
    (extract_fstring_parts
      [.lit "Hello ", .interp (.name "name") none, .lit ", welcome"]).2.2 = false ∧
    (extract_fstring_parts
      [.lit "Hello ", .interp (.name "name") none, .lit ", welcome"]).1
      = templateSpec [.lit "Hello ", .interp (.name "name") none, .lit ", welcome"] ∧
    reassemble
      (extract_fstring_parts
        [.lit "Hello ", .interp (.name "name") none, .lit ", welcome"]).1
      (extract_fstring_parts
        [.lit "Hello ", .interp (.name "name") none, .lit ", welcome"]).2.1
      = fstringText [.lit "Hello ", .interp (.name "name") none, .lit ", welcome"] :=
  claim_C2_decompose_roundtrip
    [.lit "Hello ", .interp (.name "name") none, .lit ", welcome"]
    (by decide) (by decide) (by decide)
